import Mathlib

/-!
Shallow embedding of the IterationCapacity pipeline (src/main.go).

Strings are modelled as `List Char`, Go `int` as `ℤ` (with the 64-bit
range made explicit where `strconv.Atoi` can overflow), and Go `float64`
as `ℚ` (exact rational idealisation of the float arithmetic).  Fallible
steps return `Option` / `Except`.
-/

deriving instance DecidableEq for Except

namespace IterationCapacity

/-- Go's regexp class `\s` = `[\t\n\f\r ]`. -/
def isWs (c : Char) : Bool :=
  c == '\t' || c == '\n' || c == Char.ofNat 12 || c == '\r' || c == ' '

/-- The literal `Sprint` of the pattern. -/
def sprintWord : List Char := ['S', 'p', 'r', 'i', 'n', 't']

/-- Whether the regexp `Sprint\s+(\d+)` matches at the start of `s`;
returns the captured (maximal) digit run when it does. -/
def matchAt (s : List Char) : Option (List Char) :=
  if s.take 6 = sprintWord then
    if (s.drop 6).takeWhile isWs ≠ [] ∧
        ((s.drop 6).dropWhile isWs).takeWhile Char.isDigit ≠ [] then
      some (((s.drop 6).dropWhile isWs).takeWhile Char.isDigit)
    else none
  else none

/-- Leftmost match of `Sprint\s+(\d+)` over the whole string
(`regexp.FindStringSubmatch`): the digit run captured at the first
position where the pattern matches. -/
def findSprintDigits : List Char → Option (List Char)
  | [] => none
  | c :: cs =>
    match matchAt (c :: cs) with
    | some ds => some ds
    | none => findSprintDigits cs

/-- Decimal value of a digit run, as `strconv.Atoi` computes it before
its range check. -/
def digitsToNat (ds : List Char) : ℕ :=
  ds.foldl (fun acc c => 10 * acc + (c.toNat - 48)) 0

/-- Largest value of Go's 64-bit `int`; `strconv.Atoi` fails above it. -/
def goMaxInt : ℕ := 9223372036854775807

inductive ExtractError
  | missingName
  | noMatch
  | malformedNumber
  deriving DecidableEq

/-- `extractSprintNumber` (src/main.go:34-50): nil name → error;
no `Sprint\s+(\d+)` match → error; `strconv.Atoi` overflow on the digit
run → error; otherwise the parsed ordinal. -/
def extractSprintNumber (iterationName : Option (List Char)) :
    Except ExtractError ℕ :=
  match iterationName with
  | none => .error .missingName
  | some s =>
    match findSprintDigits s with
    | none => .error .noMatch
    | some ds =>
      if digitsToNat ds ≤ goMaxInt then .ok (digitsToNat ds)
      else .error .malformedNumber

/-- One record of `points_completed.json`. -/
structure PointsCompleted where
  sprintNumber : ℤ
  completed : ℤ
  calculate : Bool
  deriving DecidableEq

/-- `findPointsCompleted` (src/main.go:138-145): first calculable record
for the sprint, `-1` when none. -/
def findPointsCompleted (sprintNumber : ℤ) : List PointsCompleted → ℤ
  | [] => -1
  | p :: rest =>
    if p.calculate && p.sprintNumber == sprintNumber then p.completed
    else findPointsCompleted sprintNumber rest

/-- Go's `int(x)` conversion of a `float64`: truncation toward zero
(`Int.div` is T-division). -/
def truncQ (q : ℚ) : ℤ := Int.tdiv q.num (q.den : ℤ)

/-- `pointsCompletedDividedByTotalDaysAvailable` (src/main.go:147-158). -/
def pointsCompletedDividedByTotalDaysAvailable
    (completed : ℤ) (days_available : ℤ) : ℚ :=
  if days_available = 0 then 0
  else if completed = -1 then 1 / 2
  else (completed : ℚ) / (days_available : ℚ)

/-- The call at src/main.go:280: the stored float `daysAvailable` is
truncated with `int(...)` before the division. -/
def efficiencyRatioOf (pointsCompleted : ℤ) (daysAvailable : ℚ) : ℚ :=
  pointsCompletedDividedByTotalDaysAvailable pointsCompleted (truncQ daysAvailable)

/-- `math.Round`: round half away from zero. -/
def goRound (q : ℚ) : ℤ := if 0 ≤ q then ⌊q + 1 / 2⌋ else ⌈q - 1 / 2⌉

/-- `Forecast` (src/main.go:186-192).  Note the else branch returns the
integer `0`, not an absent value. -/
def Forecast (daysAvailable pointsCompleted avgCompleted : ℚ) : ℤ :=
  if pointsCompleted = 0 ∧ 0 < daysAvailable then
    goRound (daysAvailable * avgCompleted)
  else 0

/-- Capacity response for one iteration (src/main.go:22-26). -/
structure CapacityData where
  totalIterationCapacityPerDay : ℚ
  totalIterationDaysOff : ℤ
  deriving DecidableEq

/-- The capacity normalisation at src/main.go:278. -/
def daysAvailableOf (cap : CapacityData) (daysInSprint : ℚ) : ℚ :=
  cap.totalIterationCapacityPerDay * daysInSprint - (cap.totalIterationDaysOff : ℚ)

/-- One row of the `iteration_capacity` table.  `avg_pnts_complete` and
`forecasted_completed` are nullable (NULL until the respective pass sets
them). -/
structure Row where
  id : ℕ
  name : List Char
  sprint_number : ℤ
  days_available : ℚ
  capacity_per_day : ℚ
  days_off : ℤ
  points_completed : ℤ
  pnts_complete_for_totaldays : ℚ
  avg_pnts_complete : Option ℚ
  forecasted_completed : Option ℤ
  deriving DecidableEq

/-- The INSERT at src/main.go:283-292, with the derived values computed
at src/main.go:278-280. -/
def mkRow (nextId : ℕ) (name : List Char) (sprintNum : ℕ)
    (cap : CapacityData) (daysInSprint : ℚ)
    (pointsData : List PointsCompleted) : Row :=
  let da := daysAvailableOf cap daysInSprint
  let pc := findPointsCompleted (sprintNum : ℤ) pointsData
  { id := nextId
    name := name
    sprint_number := (sprintNum : ℤ)
    days_available := da
    capacity_per_day := cap.totalIterationCapacityPerDay
    days_off := cap.totalIterationDaysOff
    points_completed := pc
    pnts_complete_for_totaldays := efficiencyRatioOf pc da
    avg_pnts_complete := none
    forecasted_completed := none }

/-- One fetched iteration: its (possibly nil) display name together with
what the capacity endpoint would answer for it (`none` = fetch error). -/
structure Iteration where
  name : Option (List Char)
  capacity : Option CapacityData
  deriving DecidableEq

/-- How the ingestion loop can die: the skip-log `fmt.Printf` at
src/main.go:263 dereferences `*iteration.Name`, which panics when the
name pointer is nil. -/
inductive RunError
  | nilNameDeref
  deriving DecidableEq

/-- The ingestion loop (src/main.go:259-298): extract the sprint number
(on failure, the log line dereferences the name — panic when nil,
otherwise skip); filter by `sprintNum >= sprintStart`; fetch capacity
(failure skips); insert one row. -/
def processIterations (sprintStart : ℤ) (daysInSprint : ℚ)
    (pointsData : List PointsCompleted) :
    List Iteration → ℕ → Except RunError (List Row)
  | [], _ => .ok []
  | it :: rest, nextId =>
    match extractSprintNumber it.name with
    | .error _ =>
      match it.name with
      | none => .error .nilNameDeref
      | some _ => processIterations sprintStart daysInSprint pointsData rest nextId
    | .ok sprintNum =>
      if sprintStart ≤ (sprintNum : ℤ) then
        match it.capacity with
        | none => processIterations sprintStart daysInSprint pointsData rest nextId
        | some cap =>
          (processIterations sprintStart daysInSprint pointsData rest (nextId + 1)).map
            (fun rows => mkRow nextId (it.name.getD []) sprintNum cap daysInSprint pointsData :: rows)
      else processIterations sprintStart daysInSprint pointsData rest nextId

/-- Rows matching the `WHERE points_completed <> 0` filter of the
average UPDATE (src/main.go:301-303). -/
def qualRows (rows : List Row) : List Row :=
  rows.filter (fun r => r.points_completed != 0)

/-- The scalar subquery `SELECT AVG(pnts_complete_for_totaldays) ...
WHERE points_completed <> 0`: SQL `AVG` is NULL over an empty set. -/
def avgValue (rows : List Row) : Option ℚ :=
  if qualRows rows = [] then none
  else some (((qualRows rows).map Row.pnts_complete_for_totaldays).sum
    / ((qualRows rows).length : ℚ))

/-- The UPDATE at src/main.go:301-303: every row receives the same
average. -/
def avgPass (rows : List Row) : List Row :=
  rows.map (fun r => { r with avg_pnts_complete := avgValue rows })

/-- `rows.Scan` of the REAL column `days_available` into a Go `int`
(src/main.go:328-329): database/sql renders the float64 with
`FormatFloat 'g'` and `ParseInt`s it, so the scan succeeds exactly for
integral values and errors otherwise. -/
def scanDaysAvailable (q : ℚ) : Option ℤ :=
  if q.den = 1 then some q.num else none

/-- One step of the forecast loop (src/main.go:324-347): a scan error
(NULL average, or fractional `days_available` read into an `int`) hits
`continue` and leaves the row unchanged; otherwise the row's
`forecasted_completed` is set to `Forecast`'s result. -/
def forecastRow (r : Row) : Row :=
  match r.avg_pnts_complete, scanDaysAvailable r.days_available with
  | some avg, some d =>
    { r with forecasted_completed := some (Forecast (d : ℚ) (r.points_completed : ℚ) avg) }
  | some _, none => r
  | none, _ => r

/-- The forecast pass over the whole table. -/
def forecastPass (rows : List Row) : List Row := rows.map forecastRow

/-- src/main.go:216-224: the existing `data.sqlite` (and with it the
whole previous table) is removed before the run builds a fresh one. -/
def removeDatabaseFile (_prev : List Row) : List Row := []

/-- One full run (`main`), starting from whatever table the previous run
left behind: delete the store, re-create the (now empty) table, ingest,
then the average pass, then the forecast pass. -/
def runFromStore (prev : List Row) (sprintStart : ℤ) (daysInSprint : ℚ)
    (pointsData : List PointsCompleted) (iterations : List Iteration) :
    Except RunError (List Row) :=
  let store0 := removeDatabaseFile prev
  (processIterations sprintStart daysInSprint pointsData iterations
      (store0.length + 1)).map
    (fun inserted => forecastPass (avgPass (store0 ++ inserted)))

/-- The spec's wording of §4.1's success condition: the name contains
`Sprint`, then one or more whitespace characters, then one or more
decimal digits. -/
def ContainsPattern (s : List Char) : Prop :=
  ∃ pre ws ds rest : List Char,
    s = pre ++ sprintWord ++ ws ++ ds ++ rest ∧
    ws ≠ [] ∧ (∀ c ∈ ws, isWs c = true) ∧
    ds ≠ [] ∧ (∀ c ∈ ds, c.isDigit = true)

/-- Example capacity answer: 1 point of capacity per day, 20 days off. -/
def capEx : CapacityData := ⟨1, 20⟩

/-- Example iteration list: a single well-named iteration whose
normalised days-available is negative (1 * 14 - 20 = -6). -/
def itsEx : List Iteration := [⟨some ("Sprint 1".data), some capEx⟩]

/-- Example stored row for a sprint with no recorded actual
(`points_completed = -1`), positive integral days available, after the
average pass has set the average. -/
def rowNoActual : Row :=
  ⟨1, "Sprint 7".data, 7, 10, 5, 2, -1, 1 / 2, some (1 / 2), none⟩

/-- Example stored row with `points_completed = 0` and a fractional
positive `days_available` (68.5), after the average pass. -/
def rowFracDays : Row :=
  ⟨2, "Sprint 8".data, 8, 137 / 2, 5, 2, 0, 0, some (4 / 5), none⟩

/-- Example stored row with `points_completed = 0` and an integral
positive `days_available` (68), after the average pass. -/
def rowIntDays : Row :=
  ⟨3, "Sprint 9".data, 9, 68, 5, 2, 0, 0, some (4 / 5), none⟩

/-- Example table: one sentinel row (`-1`) and one genuine-zero row. -/
def rowsEx : List Row :=
  [⟨1, "Sprint 7".data, 7, 10, 5, 2, -1, 1 / 2, none, none⟩,
   ⟨2, "Sprint 8".data, 8, 10, 5, 2, 0, 0, none, none⟩]

end IterationCapacity

namespace IterationCapacity

/-! ### Helper lemmas -/

theorem isDigit_eq_false_of_isWs {c : Char} (h : isWs c = true) :
    c.isDigit = false := by
  simp only [isWs, Bool.or_eq_true, beq_iff_eq] at h
  rcases h with ((((h | h) | h) | h) | h) <;> subst h <;> rfl

theorem isWs_eq_false_of_isDigit {c : Char} (h : c.isDigit = true) :
    isWs c = false := by
  cases hw : isWs c
  · rfl
  · rw [isDigit_eq_false_of_isWs hw] at h
    exact absurd h (by simp)

/-- C2: the Efficiency Calculator returns 0 whenever `daysAvailable`
truncates toward zero to 0 (regardless of `pointsCompleted`, the
zero-days branch taking precedence over the sentinel branch); otherwise
0.5 when `pointsCompleted = -1`; otherwise exactly `pointsCompleted`
divided by the truncated `daysAvailable`. -/
theorem efficiency_calculator_policy (pc : ℤ) (da : ℚ) :
    (truncQ da = 0 → efficiencyRatioOf pc da = 0) ∧
    (truncQ da ≠ 0 → pc = -1 → efficiencyRatioOf pc da = 1 / 2) ∧
    (truncQ da ≠ 0 → pc ≠ -1 →
      efficiencyRatioOf pc da = (pc : ℚ) / (truncQ da : ℚ)) := by
  unfold efficiencyRatioOf pointsCompletedDividedByTotalDaysAvailable
  refine ⟨fun h => by rw [if_pos h], fun h h2 => ?_, fun h h2 => ?_⟩
  · rw [if_neg h, if_pos h2]
  · rw [if_neg h, if_neg h2]

/-- Witness for C2: the sentinel branch at `pointsCompleted = -1`,
`daysAvailable = 5`. -/
theorem efficiency_calculator_policy_witness :
    truncQ (5 : ℚ) ≠ 0 ∧ efficiencyRatioOf (-1) 5 = 1 / 2 := by
  have h : truncQ (5 : ℚ) ≠ 0 := by norm_num [truncQ]
  exact ⟨h, (efficiency_calculator_policy (-1) 5).2.1 h rfl⟩

/-- C4: Completion Lookup returns the `completedPoints` of the first
record (in list order) whose sprint number matches and whose calculable
flag is set, and `-1` when no such record exists; being a pure function
of its two arguments, repeated calls agree. -/
theorem completion_lookup_first_match (n : ℤ) (l : List PointsCompleted) :
    findPointsCompleted n l =
      (((l.find? (fun p => p.calculate && p.sprintNumber == n)).map
        PointsCompleted.completed).getD (-1)) := by
  induction l with
  | nil => rfl
  | cons p rest ih =>
    by_cases h : (p.calculate && p.sprintNumber == n) = true
    · rw [@List.find?_cons_of_pos _ (fun q => q.calculate && q.sprintNumber == n) p rest h]
      unfold findPointsCompleted
      rw [if_pos h]
      rfl
    · rw [@List.find?_cons_of_neg _ (fun q => q.calculate && q.sprintNumber == n) p rest h]
      unfold findPointsCompleted
      rw [if_neg h]
      exact ih

/-- C9: a run's final table does not depend on whatever table the
previous run left behind — the store is discarded and rebuilt from
scratch, so two runs over identical external inputs produce identical
tables (here even including the surrogate ids, which restart with the
fresh table). -/
theorem pipeline_run_ignores_previous_store (prev₁ prev₂ : List Row)
    (sprintStart : ℤ) (daysInSprint : ℚ)
    (pointsData : List PointsCompleted) (iterations : List Iteration) :
    runFromStore prev₁ sprintStart daysInSprint pointsData iterations =
      runFromStore prev₂ sprintStart daysInSprint pointsData iterations := rfl

/-- C5 (failing input): on an iteration whose name is nil, extraction
fails and the skip-log line dereferences the nil name, so the run dies
instead of skipping — later iterations are never processed. -/
theorem nil_name_skip_log_panics :
    processIterations 1 14 []
      [⟨none, some capEx⟩, ⟨some ("Sprint 2".data), some capEx⟩] 1 =
      .error .nilNameDeref ∧
    processIterations 1 14 [] [⟨some ("Retro".data), some capEx⟩, ⟨some ("Sprint 2".data), some capEx⟩] 1 =
      .ok [mkRow 1 ("Sprint 2".data) 2 capEx 14 []] := ⟨rfl, rfl⟩

/-- C1 (counterexample): a stored row with the sentinel
`points_completed = -1` (and non-null average, integral days) has its
`forecasted_completed` recorded as the integer 0 by the forecast pass,
not as null. -/
theorem forecast_pass_zero_cex :
    (forecastPass [rowNoActual]).map Row.forecasted_completed = [some (0 : ℤ)] ∧
    rowNoActual.points_completed ≠ 0 := by
  constructor
  · simp [forecastPass, forecastRow, rowNoActual, scanDaysAvailable, Forecast]
  · norm_num [rowNoActual]

/-- C1 (amended): for every row with `points_completed ≠ 0` or
`days_available ≤ 0`, the forecast pass writes the integer 0 into
`forecasted_completed` whenever the row's scan succeeds (non-null
average and integral `days_available`); a row whose scan fails is left
unchanged, keeping its NULL forecast. -/
theorem forecast_pass_nonqualifying_gets_zero (r : Row)
    (h : r.points_completed ≠ 0 ∨ r.days_available ≤ 0) :
    ((∃ a, r.avg_pnts_complete = some a) ∧
        (∃ d, scanDaysAvailable r.days_available = some d) →
      forecastRow r = { r with forecasted_completed := some (0 : ℤ) }) ∧
    (r.avg_pnts_complete = none ∨ scanDaysAvailable r.days_available = none →
      forecastRow r = r) := by
  constructor
  · rintro ⟨⟨a, havg⟩, ⟨d, hscan⟩⟩
    have hd : (d : ℚ) = r.days_available := by
      unfold scanDaysAvailable at hscan
      by_cases h1 : r.days_available.den = 1
      · rw [if_pos h1] at hscan
        injection hscan with h2
        rw [← h2]
        exact (Rat.den_eq_one_iff _).mp h1
      · rw [if_neg h1] at hscan
        exact absurd hscan (by simp)
    have hz : Forecast (d : ℚ) (r.points_completed : ℚ) a = 0 := by
      unfold Forecast
      rw [if_neg]
      rintro ⟨hpc, hpos⟩
      rcases h with h | h
      · exact h (by exact_mod_cast hpc)
      · rw [hd] at hpos
        exact absurd h (not_le.mpr hpos)
    unfold forecastRow
    simp only [havg, hscan, hz]
  · rintro (h0 | h0)
    · unfold forecastRow
      simp [h0]
    · unfold forecastRow
      cases havg : r.avg_pnts_complete <;> simp [havg, h0]

/-- Witness for the amended C1 at a concrete sentinel row. -/
theorem forecast_pass_nonqualifying_gets_zero_witness :
    (rowNoActual.points_completed ≠ 0 ∨ rowNoActual.days_available ≤ 0) ∧
    forecastRow rowNoActual =
      { rowNoActual with forecasted_completed := some (0 : ℤ) } := by
  have h : rowNoActual.points_completed ≠ 0 ∨ rowNoActual.days_available ≤ 0 :=
    Or.inl (by norm_num [rowNoActual])
  refine ⟨h, ?_⟩
  exact (forecast_pass_nonqualifying_gets_zero rowNoActual h).1
    ⟨⟨1 / 2, rfl⟩, ⟨10, by norm_num [rowNoActual, scanDaysAvailable]⟩⟩

/-- C6 (counterexample): a row with `points_completed = 0`, positive
fractional `days_available = 68.5` and average 0.8: the claim demands a
forecast of `round(68.5 * 0.8) = 55`, but the pass's scan of the REAL
column into a Go `int` fails, the row is skipped, and the forecast
stays NULL. -/
theorem forecast_fractional_days_cex :
    rowFracDays.points_completed = 0 ∧ 0 < rowFracDays.days_available ∧
    rowFracDays.avg_pnts_complete = some (4 / 5) ∧
    goRound (rowFracDays.days_available * (4 / 5)) = 55 ∧
    (forecastRow rowFracDays).forecasted_completed = none := by
  refine ⟨rfl, by norm_num [rowFracDays], rfl,
    by norm_num [rowFracDays, goRound], ?_⟩
  simp [forecastRow, rowFracDays, scanDaysAvailable]
  norm_num

/-- C6 (amended): for a row with `points_completed = 0`, positive
`days_available`, a non-null average, and `days_available` an exact
integer (so that the scan into a Go `int` succeeds and is lossless),
the forecast equals `round(days_available * avg)` with
round-half-away-from-zero; fractional `days_available` instead fails
the scan and leaves the forecast NULL (see the counterexample). -/
theorem forecast_integral_days (r : Row) (a : ℚ)
    (h0 : r.points_completed = 0) (h1 : 0 < r.days_available)
    (h2 : r.avg_pnts_complete = some a) (h3 : r.days_available.den = 1) :
    forecastRow r =
      { r with forecasted_completed := some (goRound (r.days_available * a)) } := by
  have hq : ((r.days_available.num : ℚ)) = r.days_available :=
    (Rat.den_eq_one_iff _).mp h3
  have hs : scanDaysAvailable r.days_available = some r.days_available.num := by
    unfold scanDaysAvailable
    rw [if_pos h3]
  unfold forecastRow
  simp only [h2, hs]
  unfold Forecast
  rw [if_pos ⟨by rw [h0]; norm_num, by rw [hq]; exact h1⟩, hq]

/-- Witness for the amended C6: `days_available = 68`, average 0.8,
forecast `round(54.4) = 54`. -/
theorem forecast_integral_days_witness :
    rowIntDays.points_completed = 0 ∧ 0 < rowIntDays.days_available ∧
    rowIntDays.avg_pnts_complete = some (4 / 5) ∧
    rowIntDays.days_available.den = 1 ∧
    forecastRow rowIntDays =
      { rowIntDays with forecasted_completed := some (54 : ℤ) } := by
  have h1 : 0 < rowIntDays.days_available := by norm_num [rowIntDays]
  have h3 : rowIntDays.days_available.den = 1 := by norm_num [rowIntDays]
  refine ⟨rfl, h1, rfl, h3, ?_⟩
  rw [forecast_integral_days rowIntDays (4 / 5) rfl h1 rfl h3]
  norm_num [rowIntDays, goRound]

/-- C3: the Historical Average Aggregator averages
`pnts_complete_for_totaldays` over exactly the rows with
`points_completed ≠ 0` — so sentinel `-1` rows are included — and the
pass writes that one value into every row of the table. -/
theorem avg_aggregator_spec (rows : List Row) (h : qualRows rows ≠ []) :
    avgValue rows =
      some (((qualRows rows).map Row.pnts_complete_for_totaldays).sum /
        ((qualRows rows).length : ℚ)) ∧
    (∀ r, r ∈ qualRows rows ↔ r ∈ rows ∧ r.points_completed ≠ 0) ∧
    (∀ r ∈ rows, r.points_completed = -1 → r ∈ qualRows rows) ∧
    (∀ r ∈ avgPass rows, r.avg_pnts_complete = avgValue rows) := by
  refine ⟨by unfold avgValue; rw [if_neg h], fun r => ?_,
    fun r hr h1 => ?_, fun r hr => ?_⟩
  · simp [qualRows, List.mem_filter]
  · simp [qualRows, List.mem_filter, hr, h1]
  · simp only [avgPass, List.mem_map] at hr
    obtain ⟨s, -, rfl⟩ := hr
    rfl

/-- Witness for C3: a table of one sentinel row (ratio 0.5) and one
genuine-zero row; the average is taken over the sentinel row alone. -/
theorem avg_aggregator_spec_witness :
    qualRows rowsEx ≠ [] ∧ avgValue rowsEx = some (1 / 2) ∧
    (∀ r ∈ avgPass rowsEx, r.avg_pnts_complete = avgValue rowsEx) := by
  have h : qualRows rowsEx ≠ [] := by decide
  obtain ⟨h1, -, -, h4⟩ := avg_aggregator_spec rowsEx h
  refine ⟨h, ?_, h4⟩
  rw [h1]
  norm_num [qualRows, rowsEx, List.filter_cons]

/-- C8: every row the ingestion loop inserts stores
`days_available = capacityPerDayTotal * daysInSprint - daysOffTotal`,
exactly as computed from its iteration's capacity response — the value
is never clamped, so negative results propagate unchanged into the
stored row (the witness exhibits one). -/
theorem days_available_no_clamp (ss : ℤ) (dis : ℚ)
    (pts : List PointsCompleted) (its : List Iteration) (n : ℕ)
    (rows : List Row)
    (h : processIterations ss dis pts its n = .ok rows) :
    ∀ r ∈ rows, ∃ it ∈ its, ∃ cap, it.capacity = some cap ∧
      r.days_available =
        cap.totalIterationCapacityPerDay * dis - (cap.totalIterationDaysOff : ℚ) ∧
      r.capacity_per_day = cap.totalIterationCapacityPerDay ∧
      r.days_off = cap.totalIterationDaysOff := by
  induction its generalizing n rows with
  | nil =>
    simp only [processIterations] at h
    injection h with h
    subst h
    intro r hr
    exact absurd hr (List.not_mem_nil r)
  | cons it rest ih =>
    intro r hr
    simp only [processIterations] at h
    cases hx : extractSprintNumber it.name with
    | error e =>
      simp only [hx] at h
      cases hn : it.name with
      | none =>
        simp only [hn] at h
        replace h : (Except.error RunError.nilNameDeref : Except RunError (List Row)) = .ok rows := h
        exact absurd h (by simp)
      | some s =>
        simp only [hn] at h
        obtain ⟨it2, hit2, hrest⟩ := ih n rows h r hr
        exact ⟨it2, List.mem_cons_of_mem _ hit2, hrest⟩
    | ok num =>
      simp only [hx] at h
      by_cases hge : ss ≤ (num : ℤ)
      · rw [if_pos hge] at h
        cases hc : it.capacity with
        | none =>
          simp only [hc] at h
          obtain ⟨it2, hit2, hrest⟩ := ih n rows h r hr
          exact ⟨it2, List.mem_cons_of_mem _ hit2, hrest⟩
        | some cap =>
          simp only [hc] at h
          cases hrec : processIterations ss dis pts rest (n + 1) with
          | error e =>
            simp only [hrec] at h
            replace h : (Except.error e : Except RunError (List Row)) = .ok rows := h
            exact absurd h (by simp)
          | ok rows2 =>
            simp only [hrec] at h
            replace h : (Except.ok (mkRow n (it.name.getD []) num cap dis pts :: rows2) :
              Except RunError (List Row)) = .ok rows := h
            injection h with h
            subst h
            rcases List.mem_cons.mp hr with hr | hr
            · subst hr
              exact ⟨it, List.mem_cons_self _ _, cap, hc, rfl, rfl, rfl⟩
            · obtain ⟨it2, hit2, hrest⟩ := ih (n + 1) rows2 hrec r hr
              exact ⟨it2, List.mem_cons_of_mem _ hit2, hrest⟩
      · rw [if_neg hge] at h
        obtain ⟨it2, hit2, hrest⟩ := ih n rows h r hr
        exact ⟨it2, List.mem_cons_of_mem _ hit2, hrest⟩

/-- Witness for C8: capacity 1/day over a 14-day sprint with 20 days
off gives a stored `days_available` of -6, negative and unclamped. -/
theorem days_available_no_clamp_witness :
    (∃ it ∈ itsEx, ∃ cap, it.capacity = some cap ∧
      (mkRow 1 ("Sprint 1".data) 1 capEx 14 []).days_available =
        cap.totalIterationCapacityPerDay * 14 - (cap.totalIterationDaysOff : ℚ) ∧
      (mkRow 1 ("Sprint 1".data) 1 capEx 14 []).capacity_per_day =
        cap.totalIterationCapacityPerDay ∧
      (mkRow 1 ("Sprint 1".data) 1 capEx 14 []).days_off =
        cap.totalIterationDaysOff) ∧
    (mkRow 1 ("Sprint 1".data) 1 capEx 14 []).days_available < 0 := by
  constructor
  · exact days_available_no_clamp 1 14 [] itsEx 1
      [mkRow 1 ("Sprint 1".data) 1 capEx 14 []] rfl _ (by simp)
  · norm_num [mkRow, daysAvailableOf, capEx]

theorem takeWhile_append_of_all {p : Char → Bool} {l₁ l₂ : List Char}
    (h : ∀ c ∈ l₁, p c = true) :
    (l₁ ++ l₂).takeWhile p = l₁ ++ l₂.takeWhile p := by
  induction l₁ with
  | nil => simp
  | cons a l ih =>
    rw [List.cons_append, List.takeWhile_cons_of_pos (h a (by simp)),
      ih (fun c hc => h c (by simp [hc])), List.cons_append]

theorem dropWhile_append_of_all {p : Char → Bool} {l₁ l₂ : List Char}
    (h : ∀ c ∈ l₁, p c = true) :
    (l₁ ++ l₂).dropWhile p = l₂.dropWhile p := by
  induction l₁ with
  | nil => simp
  | cons a l ih =>
    rw [List.cons_append, List.dropWhile_cons_of_pos (h a (by simp)),
      ih (fun c hc => h c (by simp [hc]))]


theorem matchAt_nil : matchAt [] = none := rfl

/-- What a successful anchored match means: the suffix decomposes as
`Sprint`, a nonempty whitespace run, the captured nonempty digit run,
and a remainder. -/
theorem matchAt_sound {s ds : List Char} (h : matchAt s = some ds) :
    ∃ ws rest, s = sprintWord ++ ws ++ ds ++ rest ∧ ws ≠ [] ∧
      (∀ c ∈ ws, isWs c = true) ∧ ds ≠ [] ∧ (∀ c ∈ ds, c.isDigit = true) := by
  unfold matchAt at h
  by_cases h6 : s.take 6 = sprintWord
  · rw [if_pos h6] at h
    by_cases hc : (s.drop 6).takeWhile isWs ≠ [] ∧
        ((s.drop 6).dropWhile isWs).takeWhile Char.isDigit ≠ []
    · rw [if_pos hc] at h
      injection h with h
      subst h
      refine ⟨(s.drop 6).takeWhile isWs,
        ((s.drop 6).dropWhile isWs).dropWhile Char.isDigit, ?_, hc.1,
        fun c hcm => List.mem_takeWhile_imp hcm, hc.2,
        fun c hcm => List.mem_takeWhile_imp hcm⟩
      calc s = s.take 6 ++ s.drop 6 := (List.take_append_drop 6 s).symm
        _ = sprintWord ++ s.drop 6 := by rw [h6]
        _ = sprintWord ++
            ((s.drop 6).takeWhile isWs ++ (s.drop 6).dropWhile isWs) := by
              rw [List.takeWhile_append_dropWhile]
        _ = sprintWord ++ ((s.drop 6).takeWhile isWs ++
              (((s.drop 6).dropWhile isWs).takeWhile Char.isDigit ++
               ((s.drop 6).dropWhile isWs).dropWhile Char.isDigit)) := by
              rw [@List.takeWhile_append_dropWhile _ Char.isDigit
                ((s.drop 6).dropWhile isWs)]
        _ = sprintWord ++ (s.drop 6).takeWhile isWs ++
              ((s.drop 6).dropWhile isWs).takeWhile Char.isDigit ++
              ((s.drop 6).dropWhile isWs).dropWhile Char.isDigit := by
              simp [List.append_assoc]
    · rw [if_neg hc] at h
      exact absurd h (by simp)
  · rw [if_neg h6] at h
    exact absurd h (by simp)

/-- Conversely, on a suffix of that shape the anchored match succeeds
(capturing the maximal digit run, which extends `ds` if the remainder
starts with digits). -/
theorem matchAt_of_parts {ws ds rest : List Char} (hws : ws ≠ [])
    (hwsall : ∀ c ∈ ws, isWs c = true) (hds : ds ≠ [])
    (hdsall : ∀ c ∈ ds, c.isDigit = true) :
    ∃ ds2, matchAt (sprintWord ++ ws ++ ds ++ rest) = some ds2 ∧ ds2 ≠ [] ∧
      ∀ c ∈ ds2, c.isDigit = true := by
  obtain ⟨d, ds', rfl⟩ := List.exists_cons_of_ne_nil hds
  have hdd : Char.isDigit d = true := hdsall d (by simp)
  have hds' : ∀ c ∈ ds', Char.isDigit c = true := fun c hc => hdsall c (by simp [hc])
  have hdw : isWs d = false := isWs_eq_false_of_isDigit hdd
  have h6 : (sprintWord ++ ws ++ (d :: ds') ++ rest).take 6 = sprintWord := by
    rw [List.append_assoc, List.append_assoc]
    exact List.take_left' rfl
  have hdrop : (sprintWord ++ ws ++ (d :: ds') ++ rest).drop 6 =
      ws ++ ((d :: ds') ++ rest) := by
    rw [List.append_assoc, List.append_assoc]
    exact List.drop_left' rfl
  have htw : (ws ++ ((d :: ds') ++ rest)).takeWhile isWs = ws := by
    rw [takeWhile_append_of_all hwsall, List.cons_append,
      List.takeWhile_cons_of_neg (by simp [hdw]), List.append_nil]
  have hdwl : (ws ++ ((d :: ds') ++ rest)).dropWhile isWs = d :: (ds' ++ rest) := by
    rw [dropWhile_append_of_all hwsall, List.cons_append,
      List.dropWhile_cons_of_neg (by simp [hdw])]
  have htd : (d :: (ds' ++ rest)).takeWhile Char.isDigit =
      d :: (ds' ++ rest.takeWhile Char.isDigit) := by
    rw [List.takeWhile_cons_of_pos hdd, takeWhile_append_of_all hds']
  refine ⟨d :: (ds' ++ rest.takeWhile Char.isDigit), ?_, by simp, ?_⟩
  · unfold matchAt
    rw [if_pos h6, hdrop, htw, hdwl, htd, if_pos ⟨hws, by simp⟩]
  · intro c hc
    rcases List.mem_cons.mp hc with hc | hc
    · subst hc
      exact hdd
    · rcases List.mem_append.mp hc with hc | hc
      · exact hds' c hc
      · exact List.mem_takeWhile_imp hc

theorem findSprintDigits_eq_of_matchAt {s ds : List Char}
    (h : matchAt s = some ds) : findSprintDigits s = some ds := by
  cases s with
  | nil =>
    rw [matchAt_nil] at h
    exact absurd h (by simp)
  | cons c cs =>
    have hstep : findSprintDigits (c :: cs) =
        match matchAt (c :: cs) with
        | some ds2 => some ds2
        | none => findSprintDigits cs := rfl
    rw [hstep]
    simp only [h]

/-- The scan succeeds on every string containing the pattern, capturing
a nonempty all-digit run. -/
theorem findSprintDigits_of_contains {s : List Char} (h : ContainsPattern s) :
    ∃ ds, findSprintDigits s = some ds ∧ ds ≠ [] ∧
      ∀ c ∈ ds, c.isDigit = true := by
  obtain ⟨pre, ws, ds, rest, rfl, hws, hwsall, hds, hdsall⟩ := h
  induction pre with
  | nil =>
    obtain ⟨ds2, hm, h1, h2⟩ := matchAt_of_parts hws hwsall hds hdsall
    exact ⟨ds2, findSprintDigits_eq_of_matchAt (by simpa using hm), h1, h2⟩
  | cons c pre ih =>
    have hstep : findSprintDigits ((c :: pre) ++ sprintWord ++ ws ++ ds ++ rest) =
        match matchAt ((c :: pre) ++ sprintWord ++ ws ++ ds ++ rest) with
        | some ds2 => some ds2
        | none => findSprintDigits (pre ++ sprintWord ++ ws ++ ds ++ rest) := rfl
    cases hm : matchAt ((c :: pre) ++ sprintWord ++ ws ++ ds ++ rest) with
    | some ds2 =>
      obtain ⟨ws2, rest2, -, -, -, h1, h2⟩ := matchAt_sound hm
      refine ⟨ds2, ?_, h1, h2⟩
      rw [hstep]
      simp only [hm]
    | none =>
      obtain ⟨ds2, hf, h1, h2⟩ := ih
      refine ⟨ds2, ?_, h1, h2⟩
      rw [hstep]
      simp only [hm]
      exact hf

/-- The scan only succeeds on strings containing the pattern. -/
theorem contains_of_findSprintDigits {s ds : List Char}
    (h : findSprintDigits s = some ds) : ContainsPattern s := by
  induction s generalizing ds with
  | nil => exact absurd h (by rw [findSprintDigits]; simp)
  | cons c cs ih =>
    have hstep : findSprintDigits (c :: cs) =
        match matchAt (c :: cs) with
        | some ds2 => some ds2
        | none => findSprintDigits cs := rfl
    rw [hstep] at h
    cases hm : matchAt (c :: cs) with
    | some ds2 =>
      obtain ⟨ws, rest, hdec, hws, hwsall, hds2, hdsall⟩ := matchAt_sound hm
      exact ⟨[], ws, ds2, rest, by simpa using hdec, hws, hwsall, hds2, hdsall⟩
    | none =>
      simp only [hm] at h
      obtain ⟨pre, ws, ds2, rest, hdec, h2, h3, h4, h5⟩ := ih h
      refine ⟨c :: pre, ws, ds2, rest, ?_, h2, h3, h4, h5⟩
      rw [hdec]
      simp [List.cons_append, List.append_assoc]

/-- C7: extraction returns `MissingName` on an absent name, `NoMatch`
when the name does not contain `Sprint` + whitespace + digits, and on a
name containing the pattern it parses the captured digit run — yielding
its integer value, or `MalformedNumber` when `strconv.Atoi` cannot
parse it (64-bit overflow). -/
theorem extract_sprint_number_cases (name : Option (List Char)) :
    (name = none → extractSprintNumber name = .error .missingName) ∧
    (∀ s, name = some s → ¬ ContainsPattern s →
      extractSprintNumber name = .error .noMatch) ∧
    (∀ s, name = some s → ContainsPattern s →
      ∃ ds, findSprintDigits s = some ds ∧ ds ≠ [] ∧
        (∀ c ∈ ds, c.isDigit = true) ∧
        extractSprintNumber name =
          (if digitsToNat ds ≤ goMaxInt then .ok (digitsToNat ds)
           else .error .malformedNumber)) := by
  refine ⟨fun h => by rw [h]; rfl, fun s hs hnc => ?_, fun s hs hc => ?_⟩
  · subst hs
    cases hf : findSprintDigits s with
    | some ds => exact absurd (contains_of_findSprintDigits hf) hnc
    | none =>
      unfold extractSprintNumber
      simp only [hf]
  · subst hs
    obtain ⟨ds, hf, h1, h2⟩ := findSprintDigits_of_contains hc
    refine ⟨ds, hf, h1, h2, ?_⟩
    unfold extractSprintNumber
    simp only [hf]

/-- Witness for C7: the name `Sprint 42` contains the pattern and
extraction returns 42. -/
theorem extract_sprint_number_cases_witness :
    ContainsPattern ("Sprint 42".data) ∧
    extractSprintNumber (some ("Sprint 42".data)) = .ok 42 := by
  have hc : ContainsPattern ("Sprint 42".data) :=
    ⟨[], [' '], ['4', '2'], [], by decide, by decide, by decide, by decide,
      by decide⟩
  refine ⟨hc, ?_⟩
  obtain ⟨ds, hf, -, -, hext⟩ :=
    (extract_sprint_number_cases (some ("Sprint 42".data))).2.2 _ rfl hc
  have heval : findSprintDigits ("Sprint 42".data) = some ['4', '2'] := rfl
  rw [heval] at hf
  injection hf with hf
  subst hf
  rw [hext]
  decide

/-- The scan returns the match found at the first (leftmost) position
at which the anchored pattern matches. -/
theorem findSprintDigits_first_position : ∀ (i : ℕ) (s ds : List Char),
    matchAt (s.drop i) = some ds → (∀ j, j < i → matchAt (s.drop j) = none) →
    findSprintDigits s = some ds := by
  intro i
  induction i with
  | zero =>
    intro s ds h1 h2
    rw [List.drop_zero] at h1
    exact findSprintDigits_eq_of_matchAt h1
  | succ i ihi =>
    intro s ds h1 h2
    cases s with
    | nil =>
      rw [List.drop_nil] at h1
      rw [matchAt_nil] at h1
      exact absurd h1 (by simp)
    | cons c cs =>
      have h0 : matchAt (c :: cs) = none := by
        have h3 := h2 0 (Nat.succ_pos i)
        rwa [List.drop_zero] at h3
      have hstep : findSprintDigits (c :: cs) =
          match matchAt (c :: cs) with
          | some ds2 => some ds2
          | none => findSprintDigits cs := rfl
      rw [hstep]
      simp only [h0]
      refine ihi cs ds ?_ ?_
      · rwa [List.drop_succ_cons] at h1
      · intro j hj
        have h3 := h2 (j + 1) (Nat.succ_lt_succ hj)
        rwa [List.drop_succ_cons] at h3

/-- C10: when a name contains several occurrences of the pattern, the
extraction returns the ordinal parsed at the leftmost position where
the pattern matches. -/
theorem extraction_uses_leftmost_match (s : List Char) (i : ℕ)
    (ds : List Char) (h1 : matchAt (s.drop i) = some ds)
    (h2 : ∀ j, j < i → matchAt (s.drop j) = none)
    (h3 : digitsToNat ds ≤ goMaxInt) :
    extractSprintNumber (some s) = .ok (digitsToNat ds) := by
  have hf := findSprintDigits_first_position i s ds h1 h2
  unfold extractSprintNumber
  simp only [hf, if_pos h3]

/-- Witness for C10: in `xSprint 3 Sprint 4` the leftmost occurrence is
at position 1 and extraction returns 3, not 4. -/
theorem extraction_uses_leftmost_match_witness :
    extractSprintNumber (some ("xSprint 3 Sprint 4".data)) = .ok 3 := by
  have h := extraction_uses_leftmost_match ("xSprint 3 Sprint 4".data) 1 ['3']
    (by decide) (by decide) (by decide)
  exact h

end IterationCapacity
